import Mathlib

/-!
Verification of the AGS file-analysis pipeline (agsfileanalysis).

Shallow embedding of the repository's core pure logic:
* Python strings are modelled as `List Char` (`Str`), so that the exact
  character-level behaviour of `str.strip`, `str.split(" | ")` and string
  concatenation used by the parser is captured.
* pandas cells are modelled by `Option` (missing/NaN = `none`) or by a small
  `PyVal` type where a cell can be null, a float or a string.
* floats are modelled as rationals: the code never relies on float
  pathologies on the verified paths (NaNs are represented as `none`/null and
  are filtered before arithmetic, or propagate as `none`).

Each definition is translated from the named function of the source tree
(src/agsparser.py, src/MAINcode.py, src/cleaners.py, src/triaxial.py); the
doc comments cite the file and the lines embedded.
-/

/-- A Python string, modelled as its list of characters. -/
abbrev Str := List Char

namespace Ags

/-- The separator `" | "` used by the continuation-merge logic
(src/agsparser.py lines 155-157, src/MAINcode.py lines 131-132/156-157). -/
def pipeSep : Str := [' ', '|', ' ']

/-- Remove trailing whitespace (the right half of Python `str.strip()`). -/
def rstrip : Str → Str
  | [] => []
  | c :: rest =>
    match rstrip rest with
    | [] => if c.isWhitespace then [] else [c]
    | r => c :: r

/-- Python `str.strip()`: remove whitespace from both ends. -/
def pyStrip (s : Str) : Str := rstrip (s.dropWhile Char.isWhitespace)

/-- Python `s.split(" | ")`: greedy left-to-right split on the three-character
separator, non-overlapping, keeping empty segments.  `pySplit3 [] = [[]]`
matches Python, where `"".split(" | ")` is `[""]`. -/
def pySplit3 : Str → List Str
  | ' ' :: '|' :: ' ' :: rest => [] :: pySplit3 rest
  | c :: rest =>
    match pySplit3 rest with
    | [] => [[c]]
    | seg :: segs => (c :: seg) :: segs
  | [] => [[]]

/-- Whether `" | "` occurs as a substring (i.e. the value is multi-segment). -/
def hasPipeSep : Str → Bool
  | ' ' :: '|' :: ' ' :: _ => true
  | _ :: rest => hasPipeSep rest
  | [] => false

/-- Whether the string ends with the two characters `" |"` (space then pipe).
Such a tail fuses with a following `" | "` separator and shifts the greedy
split, which is why it appears as a side condition in the idempotence
theorem below. -/
def endsSpacePipe (s : Str) : Bool :=
  match s.reverse with
  | a :: b :: _ => a = '|' && b = ' '
  | _ => false

/-- `[p.strip() for p in prev.split(" | ") if p]` from src/agsparser.py
line 155: the raw segments are filtered for non-emptiness first, then each
is stripped. -/
def existingParts (prev : Str) : List Str :=
  ((pySplit3 prev).filter (fun p => p ≠ [])).map pyStrip

/-- The value-level core of `_merge_val` (src/agsparser.py lines 139-157):
given the previous field content `prev` and an incoming continuation token
`val`, return the new field content.  Empty (after strip) tokens are
ignored; a token already present verbatim among the stripped pipe-separated
segments is not appended again; otherwise it is appended with `" | "`
(or becomes the value outright when the field was empty). -/
def fieldMerge (prev val : Str) : Str :=
  if pyStrip val = [] then prev
  else if pyStrip val ∈ existingParts prev then prev
  else if prev ≠ [] then (prev ++ pipeSep) ++ pyStrip val else pyStrip val

end Ags

-- ── lemmas on the string primitives ────────────────────────────────────────

namespace Ags

theorem rstrip_cons (c : Char) (t : Str) :
    rstrip (c :: t) = match rstrip t with
      | [] => if c.isWhitespace then [] else [c]
      | r => c :: r := by
  rw [rstrip.eq_def]

theorem rstrip_cons_of_nil (c : Char) (t : Str) (h : rstrip t = []) :
    rstrip (c :: t) = if c.isWhitespace then [] else [c] := by
  rw [rstrip_cons, h]

theorem rstrip_cons_of_cons (c : Char) (t : Str) (a : Char) (l : Str)
    (h : rstrip t = a :: l) : rstrip (c :: t) = c :: a :: l := by
  rw [rstrip_cons, h]

theorem rstrip_head_eq (c : Char) (rest : Str) :
    rstrip (c :: rest) = [] ∨ ∃ t, rstrip (c :: rest) = c :: t := by
  cases h : rstrip rest with
  | nil =>
    by_cases hw : c.isWhitespace
    · left; rw [rstrip_cons_of_nil c rest h]; simp [hw]
    · right; exact ⟨[], by rw [rstrip_cons_of_nil c rest h]; simp [hw]⟩
  | cons a l => exact Or.inr ⟨a :: l, rstrip_cons_of_cons c rest a l h⟩

theorem rstrip_idem (s : Str) : rstrip (rstrip s) = rstrip s := by
  induction s with
  | nil => rfl
  | cons c rest ih =>
    cases h : rstrip rest with
    | nil =>
      rw [rstrip_cons_of_nil c rest h]
      by_cases hw : c.isWhitespace
      · simp [hw, rstrip]
      · simp only [hw, if_false, Bool.false_eq_true]
        rw [rstrip_cons_of_nil c [] rfl]
        simp [hw]
    | cons a l =>
      rw [rstrip_cons_of_cons c rest a l h]
      have h2 : rstrip (a :: l) = a :: l := by
        conv_lhs => rw [← h]
        rw [ih, h]
      rw [rstrip_cons_of_cons c (a :: l) a l h2]

theorem dropWhile_head_not (p : Char → Bool) (s : Str) (c : Char) (t : Str)
    (h : s.dropWhile p = c :: t) : p c = false := by
  induction s with
  | nil => simp at h
  | cons a l ih =>
    rw [List.dropWhile_cons] at h
    by_cases ha : p a
    · simp [ha] at h; exact ih h
    · simp [ha] at h
      rcases h with ⟨h1, _⟩
      subst h1
      simpa using ha

theorem pyStrip_idem (s : Str) : pyStrip (pyStrip s) = pyStrip s := by
  unfold pyStrip
  set t := s.dropWhile Char.isWhitespace with ht
  -- the head of `rstrip t` is the head of `t`, which is not whitespace
  have hdrop : (rstrip t).dropWhile Char.isWhitespace = rstrip t := by
    cases htc : t with
    | nil => simp [rstrip]
    | cons c rest =>
      have hc : c.isWhitespace = false := dropWhile_head_not _ s c rest (ht ▸ htc)
      rcases rstrip_head_eq c rest with h0 | ⟨u, hu⟩
      · rw [h0]; rfl
      · rw [hu, List.dropWhile_cons, hc]; simp
  rw [hdrop, rstrip_idem]

theorem pySplit3_cons_sep (rest : Str) :
    pySplit3 (' ' :: '|' :: ' ' :: rest) = [] :: pySplit3 rest := rfl

theorem pySplit3_cons_ne (c : Char) (rest : Str)
    (hne : ∀ r, c = ' ' → rest = '|' :: ' ' :: r → False) :
    pySplit3 (c :: rest) = match pySplit3 rest with
      | [] => [[c]]
      | seg :: segs => (c :: seg) :: segs := by
  rw [pySplit3.eq_def]
  split
  · rename_i heq
    injection heq with h1 h2
    exact ((hne _ h1 h2)).elim
  · rename_i c2 rest2 heq
    injection heq with h1 h2
    subst h1; subst h2
    rfl
  · rename_i heq
    simp at heq

theorem pySplit3_ne_nil (s : Str) : pySplit3 s ≠ [] := by
  induction s using pySplit3.induct with
  | case1 rest ih => rw [pySplit3_cons_sep]; simp
  | case2 c rest hne h0 ih => rw [pySplit3_cons_ne c rest hne, h0]; simp
  | case3 c rest hne seg segs hs ih => rw [pySplit3_cons_ne c rest hne, hs]; simp
  | case4 => simp [pySplit3]

theorem hasPipeSep_cons_ne (c : Char) (rest : Str)
    (hne : ∀ r, c = ' ' → rest = '|' :: ' ' :: r → False) :
    hasPipeSep (c :: rest) = hasPipeSep rest := by
  rw [hasPipeSep.eq_def]
  split
  · rename_i heq
    injection heq with h1 h2
    exact ((hne _ h1 h2)).elim
  · rename_i c2 rest2 heq
    injection heq with h1 h2
    subst h2
    rfl
  · rename_i heq
    simp at heq

/-- A string with no `" | "` occurrence splits into itself alone. -/
theorem pySplit3_of_not_hasPipeSep (s : Str) (h : hasPipeSep s = false) :
    pySplit3 s = [s] := by
  induction s using pySplit3.induct with
  | case1 rest ih => simp [hasPipeSep] at h
  | case2 c rest hne h0 ih =>
    exact absurd (ih (by rwa [hasPipeSep_cons_ne c rest hne] at h)) (by rw [h0]; simp)
  | case3 c rest hne seg segs hs ih =>
    have hrest := ih (by rwa [hasPipeSep_cons_ne c rest hne] at h)
    rw [pySplit3_cons_ne c rest hne, hrest]
  | case4 => rfl

theorem endsSpacePipe_cons_of (c : Char) (l : Str) (h : endsSpacePipe l = true) :
    endsSpacePipe (c :: l) = true := by
  unfold endsSpacePipe at h
  split at h
  · rename_i a b t heq
    unfold endsSpacePipe
    have hrev : (c :: l).reverse = a :: b :: (t ++ [c]) := by
      rw [List.reverse_cons, heq]
      rfl
    rw [hrev]
    exact h
  · exact absurd h (by simp)

theorem endsSpacePipe_tail (c : Char) (l : Str)
    (h : endsSpacePipe (c :: l) = false) : endsSpacePipe l = false := by
  cases hl : endsSpacePipe l with
  | false => rfl
  | true => rw [endsSpacePipe_cons_of c l hl] at h; exact absurd h (by simp)

theorem hasPipeSep_cons_sep (r : Str) :
    hasPipeSep (' ' :: '|' :: ' ' :: r) = true := rfl

theorem hasPipeSep_cons_of (c : Char) (t : Str) (h : hasPipeSep t = true) :
    hasPipeSep (c :: t) = true := by
  by_cases hsep : ∃ r, c = ' ' ∧ t = '|' :: ' ' :: r
  · obtain ⟨r, hc, ht⟩ := hsep
    rw [hc, ht]
    exact hasPipeSep_cons_sep r
  · have hne : ∀ r, c = ' ' → t = '|' :: ' ' :: r → False :=
      fun r hc ht => hsep ⟨r, hc, ht⟩
    rw [hasPipeSep_cons_ne c t hne]
    exact h

theorem hasPipeSep_append_sep (u v : Str) :
    hasPipeSep ((u ++ pipeSep) ++ v) = true := by
  induction u with
  | nil => rfl
  | cons x u ih =>
    rw [List.cons_append, List.cons_append]
    exact hasPipeSep_cons_of x _ ih

theorem two_le_length_pySplit3 (s : Str) (h : hasPipeSep s = true) :
    2 ≤ (pySplit3 s).length := by
  induction s using pySplit3.induct with
  | case1 rest ih =>
    rw [pySplit3_cons_sep]
    have h1 := List.length_pos.mpr (pySplit3_ne_nil rest)
    simp only [List.length_cons]
    omega
  | case2 c rest hne h0 ih => exact (pySplit3_ne_nil rest h0).elim
  | case3 c rest hne seg segs hs ih =>
    have hr : hasPipeSep rest = true := by rwa [hasPipeSep_cons_ne c rest hne] at h
    have h2 := ih hr
    rw [hs] at h2
    rw [pySplit3_cons_ne c rest hne, hs]
    simpa using h2
  | case4 => simp [hasPipeSep] at h

theorem getLast?_cons_of_ne_nil {α : Type _} (x : α) (L : List α) (h : L ≠ []) :
    (x :: L).getLast? = L.getLast? := by
  obtain ⟨y, M, rfl⟩ := List.exists_cons_of_ne_nil h
  rw [List.getLast?_cons_cons]

/-- The extended occurrence check: when the head character `c` together with
`rest ++ " | " ++ b` would form a separator occurrence, either `c :: rest`
already started with the separator (excluded by `hne`) or `c :: rest` ends
with `" |"` (excluded by the side condition). -/
theorem sep_not_prefix_ext (c : Char) (rest b : Str)
    (hne : ∀ r, c = ' ' → rest = '|' :: ' ' :: r → False)
    (h : endsSpacePipe (c :: rest) = false) :
    ∀ r, c = ' ' → (rest ++ pipeSep) ++ b = '|' :: ' ' :: r → False := by
  intro r hc hr
  cases rest with
  | nil => simp [pipeSep] at hr
  | cons x rest2 =>
    rw [List.cons_append, List.cons_append] at hr
    injection hr with hx htail
    subst hx
    cases rest2 with
    | nil =>
      subst hc
      have htrue : endsSpacePipe [' ', '|'] = true := rfl
      rw [htrue] at h
      exact Bool.noConfusion h
    | cons y rest3 =>
      rw [List.cons_append, List.cons_append] at htail
      injection htail with hy _
      subst hy
      exact hne rest3 hc rfl

/-- The decisive structural lemma: splitting `a ++ " | " ++ b` on `" | "`
ends in the segment `b`, provided `b` is itself a single segment and `a`
does not end with the fusing tail `" |"`. -/
theorem pySplit3_append_getLast (b : Str) (hb : hasPipeSep b = false) :
    ∀ a : Str, endsSpacePipe a = false →
      ((pySplit3 ((a ++ pipeSep) ++ b)).getLast? = some b) := by
  intro a
  induction a using pySplit3.induct with
  | case1 rest ih =>
    intro h
    have hrest : endsSpacePipe rest = false :=
      endsSpacePipe_tail _ _ (endsSpacePipe_tail _ _ (endsSpacePipe_tail _ _ h))
    simp only [List.cons_append]
    rw [pySplit3_cons_sep]
    rw [getLast?_cons_of_ne_nil _ _ (pySplit3_ne_nil _)]
    exact ih hrest
  | case2 c rest hne h0 ih => exact (pySplit3_ne_nil rest h0).elim
  | case3 c rest hne seg segs hs ih =>
    intro h
    have hrest : endsSpacePipe rest = false := endsSpacePipe_tail c rest h
    have hx := ih hrest
    have hlen : 2 ≤ (pySplit3 ((rest ++ pipeSep) ++ b)).length := by
      have := hasPipeSep_append_sep rest b
      exact two_le_length_pySplit3 _ this
    simp only [List.cons_append]
    rw [pySplit3_cons_ne c _ (sep_not_prefix_ext c rest b hne h)]
    obtain ⟨s1, ss, hX⟩ := List.exists_cons_of_ne_nil (pySplit3_ne_nil ((rest ++ pipeSep) ++ b))
    rw [hX]
    have hss : ss ≠ [] := by
      rw [hX] at hlen
      simp only [List.length_cons] at hlen
      intro hcon
      rw [hcon] at hlen
      simp at hlen
    rw [hX] at hx
    rw [getLast?_cons_of_ne_nil s1 ss hss] at hx
    simp only
    rw [getLast?_cons_of_ne_nil (c :: s1) ss hss]
    exact hx
  | case4 =>
    intro _
    rw [List.nil_append, show pipeSep ++ b = ' ' :: '|' :: ' ' :: b from rfl,
      pySplit3_cons_sep, pySplit3_of_not_hasPipeSep b hb]
    rfl

/-- After an append `prev ++ " | " ++ v`, the appended single-segment value
`v` is found verbatim among the stripped pipe-separated parts. -/
theorem mem_existingParts_append (prev v : Str)
    (hv : hasPipeSep v = false) (hvne : v ≠ []) (hstrip : pyStrip v = v)
    (hprev : endsSpacePipe prev = false) :
    v ∈ existingParts ((prev ++ pipeSep) ++ v) := by
  unfold existingParts
  have hlast := pySplit3_append_getLast v hv prev hprev
  have hmem : v ∈ pySplit3 ((prev ++ pipeSep) ++ v) := by
    obtain ⟨hne2, heq⟩ := List.mem_getLast?_eq_getLast (Option.mem_def.mpr hlast)
    have hlastmem := List.getLast_mem hne2
    rwa [← heq] at hlastmem
  exact List.mem_map.mpr ⟨v, List.mem_filter.mpr ⟨hmem, by simpa using hvne⟩, hstrip⟩

/-- When a token (stripped) is already among the stripped segments of `prev`,
`fieldMerge` leaves the value unchanged. -/
theorem fieldMerge_of_mem (prev tok : Str)
    (hmem : pyStrip tok ∈ existingParts prev) :
    fieldMerge prev tok = prev := by
  unfold fieldMerge
  by_cases h0 : pyStrip tok = []
  · simp [h0]
  · simp [h0, hmem]

/-- When a non-empty token is not yet among the segments, `fieldMerge`
appends it (or starts the value with it when the field was empty). -/
theorem fieldMerge_of_not_mem (prev tok : Str) (h0 : pyStrip tok ≠ [])
    (hmem : pyStrip tok ∉ existingParts prev) :
    fieldMerge prev tok =
      if prev ≠ [] then (prev ++ pipeSep) ++ pyStrip tok else pyStrip tok := by
  unfold fieldMerge
  simp [h0, hmem]

/-- A token is always found among the stripped segments of its own strip. -/
theorem strip_mem_existingParts_self (tok : Str) (h0 : pyStrip tok ≠ [])
    (hsep : hasPipeSep (pyStrip tok) = false) :
    pyStrip tok ∈ existingParts (pyStrip tok) := by
  unfold existingParts
  rw [pySplit3_of_not_hasPipeSep _ hsep]
  simp only [List.filter_cons, List.filter_nil]
  rw [if_pos (by simpa using h0)]
  simp [pyStrip_idem]

/-- After a merge, the token (stripped) is always found among the stripped
pipe-separated segments of the merged value — the fact that makes a second
identical merge a no-op. -/
theorem strip_mem_existingParts_fieldMerge (prev tok : Str)
    (h0 : pyStrip tok ≠ []) (hsep : hasPipeSep (pyStrip tok) = false)
    (hp : endsSpacePipe prev = false) :
    pyStrip tok ∈ existingParts (fieldMerge prev tok) := by
  by_cases hmem : pyStrip tok ∈ existingParts prev
  · rw [fieldMerge_of_mem prev tok hmem]
    exact hmem
  · rw [fieldMerge_of_not_mem prev tok h0 hmem]
    by_cases hpn : prev = []
    · simp only [hpn, ne_eq, not_true_eq_false, if_false]
      exact strip_mem_existingParts_self tok h0 hsep
    · simp only [ne_eq, hpn, not_false_eq_true, if_true]
      exact mem_existingParts_append prev (pyStrip tok) hsep h0 (pyStrip_idem tok) hp

-- ── records and the continuation-merge state machine ───────────────────────

/-- A parsed AGS record: a Python dict from field name to value, modelled as
an association list with insertion order and unique keys maintained by
`dictSet`. -/
abbrev Dict := List (Str × Str)

/-- Python `d.get(k)`: value of the first (unique) binding of `k`. -/
def dictGet (row : Dict) (k : Str) : Option Str :=
  match row with
  | [] => none
  | (k2, v) :: rest => if k2 = k then some v else dictGet rest k

/-- Python `d[k] = v`: update the binding in place, or append a new one. -/
def dictSet (row : Dict) (k v : Str) : Dict :=
  match row with
  | [] => [(k, v)]
  | (k2, v2) :: rest => if k2 = k then (k2, v) :: rest else (k2, v2) :: dictSet rest k v

theorem dictGet_set_eq (row : Dict) (k v : Str) :
    dictGet (dictSet row k v) k = some v := by
  induction row with
  | nil => simp [dictGet, dictSet]
  | cons p rest ih =>
    obtain ⟨k2, v2⟩ := p
    by_cases h : k2 = k
    · simp [dictGet, dictSet, h]
    · simp [dictGet, dictSet, h, ih]

theorem dictGet_set_ne (row : Dict) (k v k2 : Str) (h : k ≠ k2) :
    dictGet (dictSet row k v) k2 = dictGet row k2 := by
  induction row with
  | nil => simp [dictGet, dictSet, h]
  | cons p rest ih =>
    obtain ⟨k3, v3⟩ := p
    by_cases h3 : k3 = k
    · subst h3
      simp [dictGet, dictSet, h]
    · simp only [dictSet, h3, if_false]
      by_cases h4 : k3 = k2
      · simp [dictGet, h4]
      · simp [dictGet, h4, ih]

/-- `_merge_val` (src/agsparser.py lines 139-157) acting on the most recently
appended record `row`: merge continuation token `val` into the field at
heading index `idx`.  Out-of-range indices and empty (after strip) tokens
are skipped; a value already present verbatim among the field's stripped
pipe-separated segments is not appended again. -/
def mergeVal (headings : List Str) (row : Dict) (idx : Nat) (val : Str) : Dict :=
  if idx ≥ headings.length then row
  else if pyStrip val = [] then row
  else if pyStrip val ∈ existingParts ((dictGet row (headings.getD idx [])).getD []) then row
  else dictSet row (headings.getD idx [])
    (if (dictGet row (headings.getD idx [])).getD [] ≠ []
      then ((dictGet row (headings.getD idx [])).getD [] ++ pipeSep) ++ pyStrip val
      else pyStrip val)

/-- The padding step of `append_continuation` (src/agsparser.py lines
117-121): the token list is right-padded with empty strings up to
`len(headings) + 1` entries so that positional indexing is preserved. -/
def padParts (parts : List Str) (numHeadings : Nat) : List Str :=
  parts ++ List.replicate (numHeadings + 1 - parts.length) []

/-- The per-line merge schedule of `append_continuation` (src/agsparser.py
lines 123-137): the loop runs `i` over `1 .. len(headings)`; in AGS4 the
target heading index is `i - 1`, in AGS3 it is `i` itself. -/
def contSteps (isAgs4 : Bool) (numHeadings : Nat) (padded : List Str) : List (Nat × Str) :=
  (List.range numHeadings).map
    (fun i => ((if isAgs4 then i else i + 1), padded.getD (i + 1) []))

/-- Run a list of `(heading index, token)` merges left to right. -/
def mergeFold (headings : List Str) (row : Dict) (steps : List (Nat × Str)) : Dict :=
  steps.foldl (fun r s => mergeVal headings r s.1 s.2) row

/-- `append_continuation` (src/agsparser.py lines 109-137) acting on the most
recently appended record of the current group (the guard on lines 113-115 —
current group, headings, and one prior record must exist — is a precondition
of the state on which this acts). -/
def appendContinuation (isAgs4 : Bool) (headings : List Str) (row : Dict)
    (parts : List Str) : Dict :=
  mergeFold headings row (contSteps isAgs4 headings.length (padParts parts headings.length))

-- ── lemmas about single merges and merge schedules ─────────────────────────

theorem mergeVal_get_ne (headings : List Str) (row : Dict) (idx : Nat) (val : Str)
    (j : Nat) (hj : j < headings.length) (hnd : headings.Nodup) (hne : idx ≠ j) :
    dictGet (mergeVal headings row idx val) (headings.get ⟨j, hj⟩) =
      dictGet row (headings.get ⟨j, hj⟩) := by
  unfold mergeVal
  by_cases h1 : idx ≥ headings.length
  · rw [if_pos h1]
  · have hidx : idx < headings.length := Nat.lt_of_not_le h1
    rw [if_neg h1]
    by_cases h2 : pyStrip val = []
    · rw [if_pos h2]
    · rw [if_neg h2]
      by_cases h3 : pyStrip val ∈
          existingParts ((dictGet row (headings.getD idx [])).getD [])
      · rw [if_pos h3]
      · rw [if_neg h3]
        apply dictGet_set_ne
        rw [List.getD_eq_get headings [] hidx]
        intro hcon
        exact hne (congrArg Fin.val ((hnd.get_inj_iff).mp hcon))

theorem mergeVal_get_eq (headings : List Str) (row : Dict) (idx : Nat) (val : Str)
    (hidx : idx < headings.length) :
    (dictGet (mergeVal headings row idx val) (headings.get ⟨idx, hidx⟩)).getD [] =
      fieldMerge ((dictGet row (headings.get ⟨idx, hidx⟩)).getD []) val := by
  have hfield : headings.getD idx [] = headings.get ⟨idx, hidx⟩ :=
    List.getD_eq_get headings [] hidx
  have h1 : ¬ (idx ≥ headings.length) := Nat.not_le.mpr hidx
  unfold mergeVal
  simp only [h1, if_false, hfield]
  by_cases h2 : pyStrip val = []
  · rw [if_pos h2]
    unfold fieldMerge
    rw [if_pos h2]
  · rw [if_neg h2]
    by_cases h3 : pyStrip val ∈
        existingParts ((dictGet row (headings.get ⟨idx, hidx⟩)).getD [])
    · rw [if_pos h3]
      unfold fieldMerge
      rw [if_neg h2, if_pos h3]
    · rw [if_neg h3, dictGet_set_eq]
      unfold fieldMerge
      rw [if_neg h2, if_neg h3]
      simp only [Option.getD_some]

theorem mergeFold_cons (headings : List Str) (row : Dict) (s : Nat × Str)
    (rest : List (Nat × Str)) :
    mergeFold headings row (s :: rest) =
      mergeFold headings (mergeVal headings row s.1 s.2) rest := rfl

theorem mergeFold_get_notin (headings : List Str) (row : Dict)
    (steps : List (Nat × Str)) (hnd : headings.Nodup) (j : Nat)
    (hj : j < headings.length) (h : ∀ s ∈ steps, s.1 ≠ j) :
    dictGet (mergeFold headings row steps) (headings.get ⟨j, hj⟩) =
      dictGet row (headings.get ⟨j, hj⟩) := by
  induction steps generalizing row with
  | nil => rfl
  | cons s rest ih =>
    rw [mergeFold_cons,
      ih (mergeVal headings row s.1 s.2) (fun t ht => h t (List.mem_cons_of_mem s ht))]
    exact mergeVal_get_ne headings row s.1 s.2 j hj hnd (h s (List.mem_cons_self s rest))

/-- A merge whose (stripped) token is empty or already present, or whose
index is out of range, leaves the record unchanged. -/
theorem mergeVal_noop (headings : List Str) (row : Dict) (idx : Nat) (val : Str)
    (h : idx ≥ headings.length ∨ pyStrip val = [] ∨
      pyStrip val ∈ existingParts ((dictGet row (headings.getD idx [])).getD [])) :
    mergeVal headings row idx val = row := by
  unfold mergeVal
  rcases h with h | h | h
  · rw [if_pos h]
  · by_cases h1 : idx ≥ headings.length
    · rw [if_pos h1]
    · rw [if_neg h1, if_pos h]
  · by_cases h1 : idx ≥ headings.length
    · rw [if_pos h1]
    · by_cases h2 : pyStrip val = []
      · rw [if_neg h1, if_pos h2]
      · rw [if_neg h1, if_neg h2, if_pos h]

theorem mergeFold_noop (headings : List Str) (r : Dict) (steps : List (Nat × Str))
    (h : ∀ s ∈ steps, mergeVal headings r s.1 s.2 = r) :
    mergeFold headings r steps = r := by
  induction steps with
  | nil => rfl
  | cons s rest ih =>
    rw [mergeFold_cons, h s (List.mem_cons_self s rest)]
    exact ih (fun t ht => h t (List.mem_cons_of_mem s ht))

theorem range_filter_beq (n k : Nat) (hk : k < n) :
    (List.range n).filter (fun i => i == k) = [k] := by
  induction n with
  | zero => exact absurd hk (Nat.not_lt_zero k)
  | succ n ih =>
    rw [List.range_succ, List.filter_append]
    by_cases h : k < n
    · rw [ih h]
      have hne : (n == k) = false := beq_eq_false_iff_ne.mpr (by omega)
      simp [hne]
    · have hk2 : k = n := by omega
      subst hk2
      have hnil : (List.range k).filter (fun i => i == k) = [] := by
        apply List.filter_eq_nil.mpr
        intro a ha
        have h2 := List.mem_range.mp ha
        simp only [beq_eq_false_iff_ne.mpr (show a ≠ k by omega)]
        exact Bool.false_ne_true
      simp [hnil]

theorem mergeFold_get_single (headings : List Str) (row : Dict)
    (steps : List (Nat × Str)) (hnd : headings.Nodup) (j : Nat)
    (hj : j < headings.length) (tok : Str)
    (hflt : steps.filter (fun s => s.1 == j) = [(j, tok)]) :
    (dictGet (mergeFold headings row steps) (headings.get ⟨j, hj⟩)).getD [] =
      fieldMerge ((dictGet row (headings.get ⟨j, hj⟩)).getD []) tok := by
  induction steps generalizing row with
  | nil => simp [List.filter_nil] at hflt
  | cons s rest ih =>
    rw [mergeFold_cons]
    cases hs : (s.1 == j) with
    | false =>
      have hflt2 : rest.filter (fun s => s.1 == j) = [(j, tok)] := by
        rwa [List.filter_cons, if_neg (by simp [hs])] at hflt
      rw [ih _ hflt2,
        mergeVal_get_ne headings row s.1 s.2 j hj hnd (by simpa using hs)]
    | true =>
      have hcons : s :: rest.filter (fun s => s.1 == j) = [(j, tok)] := by
        rwa [List.filter_cons, if_pos (by simp [hs])] at hflt
      injection hcons with h1 h2
      have hnone : ∀ t ∈ rest, t.1 ≠ j := by
        intro t ht
        have h3 := List.filter_eq_nil.mp h2 t ht
        simpa using h3
      rw [mergeFold_get_notin headings _ rest hnd j hj hnone, h1]
      exact mergeVal_get_eq headings row j tok hj

theorem appendContinuation_eq (isAgs4 : Bool) (headings : List Str) (row : Dict)
    (parts : List Str) :
    appendContinuation isAgs4 headings row parts =
      mergeFold headings row
        (contSteps isAgs4 headings.length (padParts parts headings.length)) := rfl

theorem contSteps_filter_ags4 (numH : Nat) (padded : List Str) (i : Nat)
    (hi : i < numH) :
    (contSteps true numH padded).filter (fun t => t.1 == i) =
      [(i, padded.getD (i + 1) [])] := by
  unfold contSteps
  rw [List.filter_map]
  rw [show ((fun t : Nat × Str => t.1 == i) ∘
      (fun i2 => ((if (true : Bool) then i2 else i2 + 1), padded.getD (i2 + 1) []))) =
      (fun i2 => i2 == i) from rfl]
  rw [range_filter_beq numH i hi]
  rfl

theorem contSteps_filter_ags3 (numH : Nat) (padded : List Str) (i : Nat)
    (hi : i < numH) :
    (contSteps false numH padded).filter (fun t => t.1 == i + 1) =
      [(i + 1, padded.getD (i + 1) [])] := by
  unfold contSteps
  rw [List.filter_map]
  rw [show ((fun t : Nat × Str => t.1 == i + 1) ∘
      (fun i2 => ((if (false : Bool) then i2 else i2 + 1), padded.getD (i2 + 1) []))) =
      (fun i2 => i2 == i) from funext fun i2 => by
        show ((i2 + 1 == i + 1)) = (i2 == i)
        cases h : (i2 == i) <;> simp_all]
  rw [range_filter_beq numH i hi]
  rfl

theorem contSteps_ags3_fst_pos (numH : Nat) (padded : List Str) :
    ∀ s ∈ contSteps false numH padded, s.1 ≠ 0 := by
  intro s hs
  obtain ⟨i, hi, hfi⟩ := List.mem_map.mp hs
  rw [← hfi]
  simp

theorem padParts_getD_cases (parts : List Str) (numH n : Nat) :
    (padParts parts numH).getD n [] ∈ parts ∨ (padParts parts numH).getD n [] = [] := by
  by_cases h : n < (padParts parts numH).length
  · rw [List.getD_eq_get _ [] h]
    have hmem : (padParts parts numH).get ⟨n, h⟩ ∈ padParts parts numH :=
      List.get_mem _ _ _
    unfold padParts at hmem
    rcases List.mem_append.mp hmem with h1 | h2
    · exact Or.inl h1
    · exact Or.inr (List.eq_of_mem_replicate h2)
  · exact Or.inr (List.getD_eq_default _ _ (Nat.le_of_not_lt h))

/-- The continuation handler of the legacy parser (src/MAINcode.py lines
149-157, the AGS3 `<CONT>` branch; lines 125-133 are the identical AGS4
branch): `for idx, val in enumerate(parts[1:])` merges token `parts[idx+1]`
into heading index `idx` — the AGS4 shift — in both dialects.  Unlike
`_merge_val` of src/agsparser.py, the token is not stripped before the
membership test or the append. -/
def mainMergeStep (headings : List Str) (row : Dict) (idx : Nat) (val : Str) : Dict :=
  if idx < headings.length ∧ val ≠ [] then
    (if val ∈ existingParts ((dictGet row (headings.getD idx [])).getD []) then row
     else dictSet row (headings.getD idx [])
       (if (dictGet row (headings.getD idx [])).getD [] ≠ []
         then ((dictGet row (headings.getD idx [])).getD [] ++ pipeSep) ++ val
         else val))
  else row

/-- The whole `<CONT>` loop of src/MAINcode.py lines 150-157 acting on the
most recently appended record. -/
def mainContMerge (headings : List Str) (row : Dict) (parts : List Str) : Dict :=
  (List.range (parts.length - 1)).foldl
    (fun r i => mainMergeStep headings r i (parts.getD (i + 1) [])) row

end Ags

-- ── C3 and C6 ──────────────────────────────────────────────────────────────

namespace Ags

/-- **C3** (amended): for the v2 parsing engine (src/agsparser.py,
`append_continuation`), with distinct declared headings, an AGS3
continuation line leaves the field at heading index 0 untouched and merges
the token at position `i` into the field at heading index `i` for every
`1 ≤ i < len(headings)` (position `len(headings)` is discarded by the
`idx >= len(headings)` guard of `_merge_val`); an AGS4 continuation line
merges the token at position `i` into heading index `i - 1` (stated below
as: heading index `j` receives token `j + 1`).  The amendment is that this
holds for src/agsparser.py only: the legacy parser in src/MAINcode.py
applies the AGS4 shift in both dialects, so its AGS3 continuation lines do
write heading index 0 (see `mainContMerge_writes_heading0`). -/
theorem appendContinuation_shift (headings : List Str) (row : Dict)
    (parts : List Str) (hnd : headings.Nodup) (hpos : 0 < headings.length) :
    (dictGet (appendContinuation false headings row parts)
        (headings.get ⟨0, hpos⟩) = dictGet row (headings.get ⟨0, hpos⟩)) ∧
    (∀ j, ∀ hj : j < headings.length, 1 ≤ j →
        (dictGet (appendContinuation false headings row parts)
            (headings.get ⟨j, hj⟩)).getD [] =
          fieldMerge ((dictGet row (headings.get ⟨j, hj⟩)).getD [])
            ((padParts parts headings.length).getD j [])) ∧
    (∀ j, ∀ hj : j < headings.length,
        (dictGet (appendContinuation true headings row parts)
            (headings.get ⟨j, hj⟩)).getD [] =
          fieldMerge ((dictGet row (headings.get ⟨j, hj⟩)).getD [])
            ((padParts parts headings.length).getD (j + 1) [])) := by
  refine ⟨?_, ?_, ?_⟩
  · rw [appendContinuation_eq]
    exact mergeFold_get_notin _ _ _ hnd 0 hpos (contSteps_ags3_fst_pos _ _)
  · intro j hj h1
    obtain ⟨i, rfl⟩ : ∃ i, j = i + 1 := ⟨j - 1, by omega⟩
    rw [appendContinuation_eq]
    exact mergeFold_get_single _ _ _ hnd (i + 1) hj _
      (contSteps_filter_ags3 headings.length _ i (by omega))
  · intro j hj
    rw [appendContinuation_eq]
    exact mergeFold_get_single _ _ _ hnd j hj _
      (contSteps_filter_ags4 headings.length _ j hj)

/-- Witness for `appendContinuation_shift` at a concrete state: headings
`["K", "D"]`, last record `{K: "A"}`, AGS3 continuation `["<CONT>", "X"]`;
the key field `K` (heading index 0) is untouched. -/
theorem appendContinuation_shift_witness :
    dictGet (appendContinuation false [['K'], ['D']] [(['K'], ['A'])]
        [['<'], ['X']]) (([['K'], ['D']] : List Str).get ⟨0, Nat.succ_pos 1⟩) =
      dictGet [(['K'], ['A'])] (([['K'], ['D']] : List Str).get ⟨0, Nat.succ_pos 1⟩) :=
  (appendContinuation_shift [['K'], ['D']] [(['K'], ['A'])] [['<'], ['X']]
    (by decide) (Nat.succ_pos 1)).1

/-- **C3 counterexample**: the claim says heading index 0 is never written
by an AGS3 continuation line, but src/MAINcode.py's `<CONT>` handler (lines
150-157) merges token `parts[1]` into heading index 0: with headings
`["K", "D"]`, last record `{K: "A", D: "C"}` and the continuation line
`["<CONT>", "E"]`, the field `K` at heading index 0 changes from `"A"` to
`"A | E"`. -/
theorem mainContMerge_writes_heading0 :
    dictGet (mainContMerge [['K'], ['D']] [(['K'], ['A']), (['D'], ['C'])]
        [['<'], ['E']]) ['K'] ≠
      dictGet [(['K'], ['A']), (['D'], ['C'])] ['K'] := by decide

/-- **C6** (amended): with DISTINCT declared headings, re-applying the same
continuation line to the same record is a no-op — each field's pipe-joined
value keeps each distinct segment once — provided every token of the line
is single-segment after stripping (contains no `" | "`), and no existing
field value ends with the fusing tail `" |"`.  The amendment is forced
because a quoted CSV token may itself contain `" | "`: such a token
re-splits into several segments after being appended, fails the
verbatim-membership test, and is appended again (see
`appendContinuation_not_idempotent`).  The distinct-headings condition is
also necessary: with duplicate headings two merges of one line target the
same dict key, and a first token ending in `" |"` (a stripped value may end
in a pipe) fuses with the separator inserted by the second merge, shifting
the greedy re-split so the membership test fails again on re-application. -/
theorem appendContinuation_idempotent (isAgs4 : Bool) (headings : List Str)
    (row : Dict) (parts : List Str) (hnd : headings.Nodup)
    (htok : ∀ tok ∈ parts, hasPipeSep (pyStrip tok) = false)
    (hrow : ∀ j, ∀ hj : j < headings.length,
      endsSpacePipe ((dictGet row (headings.get ⟨j, hj⟩)).getD []) = false) :
    appendContinuation isAgs4 headings
        (appendContinuation isAgs4 headings row parts) parts =
      appendContinuation isAgs4 headings row parts := by
  have helper : ∀ (idx : Nat) (tok : Str) (hidxlt : idx < headings.length),
      (contSteps isAgs4 headings.length (padParts parts headings.length)).filter
          (fun t => t.1 == idx) = [(idx, tok)] →
      pyStrip tok ≠ [] → hasPipeSep (pyStrip tok) = false →
      mergeVal headings (appendContinuation isAgs4 headings row parts) idx tok =
        appendContinuation isAgs4 headings row parts := by
    intro idx tok hidxlt hfilter hv htok2
    apply mergeVal_noop
    refine Or.inr (Or.inr ?_)
    rw [List.getD_eq_get headings [] hidxlt, appendContinuation_eq,
      mergeFold_get_single headings row _ hnd idx hidxlt tok hfilter]
    exact strip_mem_existingParts_fieldMerge _ _ hv htok2 (hrow idx hidxlt)
  rw [appendContinuation_eq isAgs4 headings
    (appendContinuation isAgs4 headings row parts) parts]
  apply mergeFold_noop
  intro s hs
  obtain ⟨i, hi, hfi⟩ := List.mem_map.mp hs
  have hiH : i < headings.length := List.mem_range.mp hi
  subst hfi
  by_cases hv : pyStrip ((padParts parts headings.length).getD (i + 1) []) = []
  · exact mergeVal_noop _ _ _ _ (Or.inr (Or.inl hv))
  have htok2 : hasPipeSep
      (pyStrip ((padParts parts headings.length).getD (i + 1) [])) = false := by
    rcases padParts_getD_cases parts headings.length (i + 1) with hmem | hnil
    · exact htok _ hmem
    · rw [hnil] at hv
      exact absurd rfl hv
  cases isAgs4 with
  | true =>
    exact helper i _ hiH (contSteps_filter_ags4 headings.length _ i hiH) hv htok2
  | false =>
    by_cases hend : i + 1 ≥ headings.length
    · exact mergeVal_noop _ _ _ _ (Or.inl hend)
    · exact helper (i + 1) _ (Nat.lt_of_not_le hend)
        (contSteps_filter_ags3 headings.length _ i hiH) hv htok2

/-- Witness for `appendContinuation_idempotent`: a concrete well-behaved
continuation line applied twice. -/
theorem appendContinuation_idempotent_witness :
    appendContinuation false [['K'], ['D']]
        (appendContinuation false [['K'], ['D']] [(['K'], ['A'])] [['<'], ['B']])
        [['<'], ['B']] =
      appendContinuation false [['K'], ['D']] [(['K'], ['A'])] [['<'], ['B']] :=
  appendContinuation_idempotent false [['K'], ['D']] [(['K'], ['A'])] [['<'], ['B']]
    (by decide) (by decide) (by decide)

/-- **C6 counterexample**: the claim as stated quantifies over every parser
state and continuation line, but a continuation token that itself contains
`" | "` is appended twice: with headings `["K", "D"]`, record `{K: "A"}`
and the line `["<CONT>", "X | Y"]`, the second application changes the
record again (the field `D` becomes `"X | Y | X | Y"`). -/
theorem appendContinuation_not_idempotent :
    appendContinuation false [['K'], ['D']]
        (appendContinuation false [['K'], ['D']] [(['K'], ['A'])]
          [['<'], ['X', ' ', '|', ' ', 'Y']])
        [['<'], ['X', ' ', '|', ' ', 'Y']] ≠
      appendContinuation false [['K'], ['D']] [(['K'], ['A'])]
        [['<'], ['X', ' ', '|', ' ', 'Y']] := by decide

-- ── C10: the AGS4 DATA line ────────────────────────────────────────────────

/-- Python `dict(...)` built from a list of key/value pairs: keys keep the
position of their first occurrence, later duplicates overwrite the value. -/
def dictOfPairs (pairs : List (Str × Str)) : Dict :=
  pairs.foldl (fun d p => dictSet d p.1 p.2) []

/-- The AGS4 `DATA` handler of src/agsparser.py lines 214-220:
`row_dict = dict(zip(headings, parts[1:]))` — token `parts[1]` pairs with
`headings[0]`, the zip stopping at the shorter of the two lists. -/
def ags4DataRow (headings : List Str) (parts : List Str) : Dict :=
  dictOfPairs (headings.zip (parts.drop 1))

/-- Parser state fragment relevant to diagnostics: the rows of the current
group and the `parse_errors` list (src/agsparser.py line 104), which no code
path of the DATA handler ever extends. -/
structure ParseState where
  rows : List Dict
  parseErrors : List Str

/-- The effect of one AGS4 `DATA` line (src/agsparser.py lines 214-220) on
the state, once a group and headings are established: append the zipped
record; nothing else changes. -/
def ags4DataStep (headings : List Str) (st : ParseState) (parts : List Str) :
    ParseState :=
  { st with rows := st.rows ++ [ags4DataRow headings parts] }

theorem foldl_dictSet_get_notin (pairs : List (Str × Str)) (d : Dict) (k : Str)
    (h : k ∉ pairs.map Prod.fst) :
    dictGet (pairs.foldl (fun d p => dictSet d p.1 p.2) d) k = dictGet d k := by
  induction pairs generalizing d with
  | nil => rfl
  | cons p rest ih =>
    rw [List.foldl_cons, ih _ (fun hmem => h (List.mem_cons_of_mem _ hmem))]
    exact dictGet_set_ne d p.1 p.2 k
      (fun hcon => h (by rw [← hcon]; exact List.mem_cons_self _ _))

theorem foldl_dictSet_get_mem (pairs : List (Str × Str)) (k : Str) (v : Str) :
    ∀ d : Dict, (k, v) ∈ pairs → (pairs.map Prod.fst).Nodup →
      dictGet (pairs.foldl (fun d p => dictSet d p.1 p.2) d) k = some v := by
  induction pairs with
  | nil =>
    intro d hmem _
    simp at hmem
  | cons p rest ih =>
    intro d hmem hnd
    rw [List.foldl_cons]
    rcases List.mem_cons.mp hmem with heq | hrest
    · subst heq
      rw [foldl_dictSet_get_notin rest _ k (by simpa using (List.nodup_cons.mp hnd).1)]
      exact dictGet_set_eq d k v
    · exact ih _ hrest (List.nodup_cons.mp hnd).2

theorem zip_take_length {α β : Type _} (l1 : List α) (l2 : List β) :
    l1.zip (l2.take l1.length) = l1.zip l2 := by
  induction l1 generalizing l2 with
  | nil => rfl
  | cons a l1 ih =>
    cases l2 with
    | nil => rfl
    | cons b l2 => simp [List.zip_cons_cons, ih]

theorem map_fst_zip_eq_take {α β : Type _} (l1 : List α) (l2 : List β) :
    (l1.zip l2).map Prod.fst = l1.take l2.length := by
  induction l1 generalizing l2 with
  | nil => simp
  | cons a l1 ih =>
    cases l2 with
    | nil => simp
    | cons b l2 => simp [List.zip_cons_cons, ih]

/-- **C10**: once a group and headings are established, an AGS4 `DATA` line
emits exactly the positional zip of the headings with `parts[1:]`: heading
`j` is bound to token `parts[j+1]` while both exist; when the line carries
fewer value tokens than headings, the trailing heading keys are absent from
the record; tokens beyond position `len(headings)` are silently discarded
(the record is unchanged if they are dropped); and the diagnostics list is
not touched — no error is raised and no parse error is recorded. -/
theorem ags4DataStep_zip (headings : List Str) (st : ParseState)
    (parts : List Str) (hnd : headings.Nodup) :
    ((ags4DataStep headings st parts).parseErrors = st.parseErrors) ∧
    ((ags4DataStep headings st parts).rows = st.rows ++ [ags4DataRow headings parts]) ∧
    (∀ j, ∀ hj : j < headings.length, j + 1 < parts.length →
      dictGet (ags4DataRow headings parts) (headings.get ⟨j, hj⟩) =
        some (parts.getD (j + 1) [])) ∧
    (∀ j, ∀ hj : j < headings.length, parts.length ≤ j + 1 →
      dictGet (ags4DataRow headings parts) (headings.get ⟨j, hj⟩) = none) ∧
    (ags4DataRow headings parts =
      ags4DataRow headings (parts.take (headings.length + 1))) := by
  have hndz : ((headings.zip (parts.drop 1)).map Prod.fst).Nodup := by
    rw [map_fst_zip_eq_take]
    exact (List.take_sublist _ _).nodup hnd
  refine ⟨rfl, rfl, ?_, ?_, ?_⟩
  · intro j hj htok
    have hjz : j < (headings.zip (parts.drop 1)).length := by
      rw [List.length_zip, List.length_drop]
      omega
    have hpair : (headings.zip (parts.drop 1)).get ⟨j, hjz⟩ =
        (headings.get ⟨j, hj⟩, parts.getD (j + 1) []) := by
      rw [List.get_zip]
      refine Prod.ext rfl ?_
      rw [List.getD_eq_get parts [] (by omega : j + 1 < parts.length)]
      show (parts.drop 1).get ⟨j, _⟩ = parts.get ⟨j + 1, _⟩
      simp [List.getElem_drop, Nat.add_comm]
    have hmem : (headings.get ⟨j, hj⟩, parts.getD (j + 1) []) ∈
        headings.zip (parts.drop 1) := by
      rw [← hpair]
      exact List.get_mem _ _ _
    exact foldl_dictSet_get_mem _ _ _ _ hmem hndz
  · intro j hj hge
    unfold ags4DataRow dictOfPairs
    rw [foldl_dictSet_get_notin]
    · rfl
    · rw [map_fst_zip_eq_take]
      intro hmem
      obtain ⟨i, hgi⟩ := List.mem_iff_get.mp hmem
      have hlen : (headings.take (parts.drop 1).length).length =
          min (parts.drop 1).length headings.length := List.length_take _ _
      have hi2 : (i : Nat) < (parts.drop 1).length :=
        Nat.lt_of_lt_of_le (Nat.lt_of_lt_of_eq i.isLt hlen) (Nat.min_le_left _ _)
      have hiH : (i : Nat) < headings.length :=
        Nat.lt_of_lt_of_le (Nat.lt_of_lt_of_eq i.isLt hlen) (Nat.min_le_right _ _)
      have hgetake : (headings.take (parts.drop 1).length).get i =
          headings.get ⟨i, hiH⟩ := by
        simp [List.getElem_take]
      have hgeq : headings.get ⟨(i : Nat), hiH⟩ = headings.get ⟨j, hj⟩ :=
        hgetake.symm.trans hgi
      have hij : ((i : Nat) : Nat) = j :=
        congrArg Fin.val ((hnd.get_inj_iff).mp hgeq)
      have hdrop : (parts.drop 1).length = parts.length - 1 := by simp
      omega
  · unfold ags4DataRow
    rw [List.drop_take, Nat.add_sub_cancel, zip_take_length]

/-- Witness for `ags4DataStep_zip`: headings `["A", "B"]` with a DATA line
carrying a single value token — the record lacks the key `B`. -/
theorem ags4DataStep_zip_witness :
    dictGet (ags4DataRow [['A'], ['B']] [['D'], ['x']])
        (([['A'], ['B']] : List Str).get ⟨1, Nat.lt_succ_self 1⟩) = none :=
  (ags4DataStep_zip [['A'], ['B']] ⟨[], []⟩ [['D'], ['x']]
    (by decide)).2.2.2.1 1 (Nat.lt_succ_self 1) (by decide)

end Ags

-- ── pandas cells and the row cleaners ──────────────────────────────────────

namespace Ags

/-- A pandas cell: null (NaN/None), a float, or a string.  Floats are
modelled as rationals; a float NaN is represented by `pnull` (pandas treats
it as missing in `notna`/`isna`). -/
inductive PyVal where
  | pnull : PyVal
  | pnum : ℚ → PyVal
  | pstr : Str → PyVal
deriving DecidableEq

/-- One cell of `df.replace(r"^\s*$", np.nan, regex=True)`
(src/cleaners.py line 16): a string consisting only of whitespace (or
empty) becomes NaN; other cells are unchanged (the regex only applies to
string values). -/
def replaceBlank (v : PyVal) : PyVal :=
  match v with
  | .pstr s => if s.all Char.isWhitespace then .pnull else .pstr s
  | v => v

/-- `pd.notna` on one cell. -/
def notna (v : PyVal) : Bool :=
  match v with
  | .pnull => false
  | _ => true

/-- `clean.notna().sum(axis=1)` for one row (src/cleaners.py line 17). -/
def rowNotnaCount (row : List PyVal) : Nat :=
  (row.map replaceBlank).countP notna

/-- `drop_singleton_rows` (src/cleaners.py lines 11-18): keep only the rows
whose count of non-null cells — after blank strings are replaced by NaN —
exceeds 1.  The guard `if df.empty: return df` (line 12) is true when
EITHER axis is empty: a table with no rows, but also a zero-column table
that still has rows (e.g. `pd.DataFrame([{}, {}])`), is returned unchanged.
`ncols` is the table's column count; rows are positionally aligned with the
columns, so in the zero-column case every row is `[]` yet is still
emitted. -/
def dropSingletonRows (ncols : Nat) (rows : List (List PyVal)) :
    List (List PyVal) :=
  if rows = [] ∨ ncols = 0 then rows
  else rows.filter (fun r => 1 < rowNotnaCount r)

/-- Blankness as the specification words it: null, empty-string and
whitespace-only cells are blank. -/
def isBlankCell (v : PyVal) : Bool :=
  match v with
  | .pnull => true
  | .pstr s => s.all Char.isWhitespace
  | .pnum _ => false

/-- The number of non-blank fields of a row, as the specification words it. -/
def nonBlankCount (row : List PyVal) : Nat :=
  row.countP (fun v => ! isBlankCell v)

theorem rowNotnaCount_eq_nonBlankCount (row : List PyVal) :
    rowNotnaCount row = nonBlankCount row := by
  unfold rowNotnaCount nonBlankCount
  rw [List.countP_map]
  apply List.countP_congr
  intro v _
  cases v with
  | pnull => simp [replaceBlank, notna, isBlankCell, Function.comp]
  | pnum q => simp [replaceBlank, notna, isBlankCell, Function.comp]
  | pstr s =>
    by_cases hws : s.all Char.isWhitespace
    · simp [replaceBlank, notna, isBlankCell, Function.comp, hws]
    · simp [replaceBlank, notna, isBlankCell, Function.comp, hws]

/-- **C8** (amended): for every table WITH AT LEAST ONE COLUMN, the
singleton-row filter emits exactly the input rows having at least 2
non-blank fields (null, empty-string and whitespace-only cells count as
blank), in their original order, and rows with 1 or 0 non-blank fields do
not appear in the output.  The amendment: for a zero-column table the
`df.empty` guard returns the input unchanged even when rows are present, so
rows with 0 non-blank fields do appear in the output (see
`dropSingletonRows_zero_columns`). -/
theorem dropSingletonRows_spec (ncols : Nat) (rows : List (List PyVal))
    (hnc : ncols ≠ 0) :
    dropSingletonRows ncols rows = rows.filter (fun r => 2 ≤ nonBlankCount r) ∧
    (∀ r ∈ dropSingletonRows ncols rows, 2 ≤ nonBlankCount r) := by
  have hfeq : dropSingletonRows ncols rows =
      rows.filter (fun r => 2 ≤ nonBlankCount r) := by
    unfold dropSingletonRows
    by_cases h : rows = []
    · rw [if_pos (Or.inl h), h, List.filter_nil]
    · rw [if_neg (by
        rintro (h1 | h2)
        · exact h h1
        · exact hnc h2)]
      apply List.filter_congr
      intro r _
      rw [rowNotnaCount_eq_nonBlankCount]
      rfl
  refine ⟨hfeq, ?_⟩
  intro r hr
  rw [hfeq] at hr
  simpa using (List.mem_filter.mp hr).2

/-- Witness for `dropSingletonRows_spec`: on a two-column table, a
surviving two-field row indeed has at least two non-blank fields. -/
theorem dropSingletonRows_spec_witness :
    2 ≤ nonBlankCount [PyVal.pstr ['a'], PyVal.pnum 1] :=
  (dropSingletonRows_spec 2
      [[PyVal.pstr ['a'], PyVal.pnum 1], [PyVal.pnull, PyVal.pstr []]]
      (by decide)).2
    [PyVal.pstr ['a'], PyVal.pnum 1] (by decide)

/-- **C8 counterexample**: a zero-column table with two rows — which pandas
builds e.g. from `pd.DataFrame([{}, {}])`, and whose `df.empty` is true
because the column axis is empty — passes through `drop_singleton_rows`
unchanged, so the output contains rows with 0 non-blank fields, refuting
the claim that every emitted row has at least 2 non-blank fields. -/
theorem dropSingletonRows_zero_columns :
    dropSingletonRows 0 [[], []] = [[], []] ∧
      nonBlankCount ([] : List PyVal) = 0 ∧
      [] ∈ dropSingletonRows 0 [[], []] := by
  refine ⟨rfl, rfl, ?_⟩
  rw [show dropSingletonRows 0 [[], []] = [[], []] from rfl]
  exact List.mem_cons_self _ _

-- ── C5: row expansion ──────────────────────────────────────────────────────

/-- `split_values` for one cell (src/cleaners.py lines 39-42):
`str(row[col]).split(" | ")` for a non-null cell, `[""]` for a null one.
Cells are taken post-stringification (`Option Str`): `none` is NaN. -/
def splitVals (c : Option Str) : List Str :=
  match c with
  | none => [[]]
  | some s => pySplit3 s

/-- `len(set(values)) == 1` (src/cleaners.py line 46): the number of
distinct segments is one. -/
def oneDistinct (values : List Str) : Bool :=
  values.dedup.length == 1

/-- `expand_rows` on a single record (src/cleaners.py lines 38-61): if every
column's cell splits into exactly one distinct value and every column has
more than one segment, emit the single collapsed row; otherwise emit one row
per segment position up to the maximum segment count, padding missing
positions with the empty string. -/
def expandRow (row : List (Option Str)) : List (List Str) :=
  if (row.map splitVals).all (fun vals => oneDistinct vals) ∧
      (row.map splitVals).all (fun vals => 1 < vals.length) then
    [(row.map splitVals).map (fun vals => vals.headD [])]
  else
    (List.range (if row.length = 0 then 1
      else ((row.map splitVals).map List.length).foldl Nat.max 0)).map
      (fun i => (row.map splitVals).map (fun vals => vals.getD i []))

/-- `expand_rows` over the whole table: per-row expansion, concatenated in
order (src/cleaners.py lines 36-63). -/
def expandRows (rows : List (List (Option Str))) : List (List Str) :=
  rows.flatMap expandRow

/-- The maximum segment count over the row's cells
(`max(len(v) for v in split_values.values())`, src/cleaners.py line 55). -/
def maxSegs (row : List (Option Str)) : Nat :=
  ((row.map splitVals).map List.length).foldl Nat.max 0

theorem splitVals_ne_nil (c : Option Str) : splitVals c ≠ [] := by
  cases c with
  | none => simp [splitVals]
  | some s => exact pySplit3_ne_nil s

theorem dedup_length_of_const (a : Str) (t : List Str) (h : ∀ x ∈ t, x = a) :
    ((a :: t).dedup).length = 1 := by
  induction t with
  | nil => simp
  | cons b t ih =>
    have hb : b = a := h b (List.mem_cons_self _ _)
    subst hb
    rw [List.dedup_cons_of_mem (List.mem_cons_self b t)]
    exact ih (fun x hx => h x (List.mem_cons_of_mem b hx))

theorem oneDistinct_iff (l : List Str) (hl : l ≠ []) :
    oneDistinct l = true ↔ ∀ x ∈ l, x = l.headD [] := by
  unfold oneDistinct
  rw [beq_iff_eq]
  constructor
  · intro h x hx
    obtain ⟨b, hb⟩ := List.length_eq_one.mp h
    have hxb : x = b := by
      have hxd : x ∈ l.dedup := List.mem_dedup.mpr hx
      rw [hb] at hxd
      simpa using hxd
    have hhb : l.headD [] = b := by
      have hh : l.headD [] ∈ l := by
        cases l with
        | nil => exact absurd rfl hl
        | cons a t => exact List.mem_cons_self _ _
      have hhd : l.headD [] ∈ l.dedup := List.mem_dedup.mpr hh
      rw [hb] at hhd
      simpa using hhd
    rw [hxb, hhb]
  · intro h
    cases l with
    | nil => exact absurd rfl hl
    | cons a t =>
      exact dedup_length_of_const a t
        (fun x hx => h x (List.mem_cons_of_mem a hx))

/-- **C5** (amended): a record collapses to exactly one output row if and
only if every cell — multi-valued or not — has more than one segment and a
single distinct segment value (the per-column repetition counts need not
agree); any record violating that (in particular one containing any
single-segment or null cell, even if all its multi-valued cells are uniform
repetitions) expands to one output row per segment position up to the
maximum segment count, cells with fewer segments padded with the empty
string. -/
theorem expandRow_spec (row : List (Option Str)) :
    ((∀ c ∈ row, 2 ≤ (splitVals c).length ∧
        (∀ s ∈ splitVals c, s = (splitVals c).headD [])) →
      expandRow row = [row.map (fun c => (splitVals c).headD [])]) ∧
    ((∃ c ∈ row, (splitVals c).length ≤ 1 ∨
        ∃ s ∈ splitVals c, s ≠ (splitVals c).headD []) →
      expandRow row = (List.range (maxSegs row)).map
        (fun i => row.map (fun c => (splitVals c).getD i []))) := by
  constructor
  · intro h
    unfold expandRow
    rw [if_pos ?hc]
    case hc =>
      constructor
      · rw [List.all_eq_true]
        intro vals hvals
        obtain ⟨c, hc, rfl⟩ := List.mem_map.mp hvals
        exact (oneDistinct_iff _ (splitVals_ne_nil c)).mpr (h c hc).2
      · rw [List.all_eq_true]
        intro vals hvals
        obtain ⟨c, hc, rfl⟩ := List.mem_map.mp hvals
        simpa using (h c hc).1
    simp [List.map_map, Function.comp]
  · intro hex
    obtain ⟨c, hc, hviol⟩ := hex
    have hrow : row.length ≠ 0 := by
      intro h0
      rw [List.length_eq_zero] at h0
      rw [h0] at hc
      simp at hc
    unfold expandRow
    rw [if_neg ?hn]
    case hn =>
      rintro ⟨h1, h2⟩
      rcases hviol with hlen | ⟨s, hs, hne⟩
      · rw [List.all_eq_true] at h2
        have := h2 (splitVals c) (List.mem_map.mpr ⟨c, hc, rfl⟩)
        simp at this
        omega
      · rw [List.all_eq_true] at h1
        have h3 := h1 (splitVals c) (List.mem_map.mpr ⟨c, hc, rfl⟩)
        exact hne ((oneDistinct_iff _ (splitVals_ne_nil c)).mp h3 s hs)
    rw [if_neg hrow]
    unfold maxSegs
    simp [List.map_map, Function.comp]

/-- Witness for `expandRow_spec`: the row `("A | A", "B | B | B")` — every
cell multi-segment with one distinct value — collapses to the single row
`("A", "B")` even though the repetition counts differ. -/
theorem expandRow_spec_witness :
    expandRow [some ['A', ' ', '|', ' ', 'A'],
        some ['B', ' ', '|', ' ', 'B', ' ', '|', ' ', 'B']] =
      [[['A'], ['B']]] :=
  ((expandRow_spec [some ['A', ' ', '|', ' ', 'A'],
      some ['B', ' ', '|', ' ', 'B', ' ', '|', ' ', 'B']]).1 (by decide)).trans
    (by decide)

/-- **C5 counterexample**: the record `("A | A", "B")` has a single
multi-valued cell, which is a uniform repetition (`"A"` twice), so the claim
as stated demands exactly one output row; `expand_rows` instead produces two
rows (the collapse branch also requires the single-segment cell `"B"` to be
multi-valued), padding the second with an empty string. -/
theorem expandRow_counterexample :
    expandRow [some ['A', ' ', '|', ' ', 'A'], some ['B']] =
        [[['A'], ['B']], [['A'], []]] ∧
      (expandRow [some ['A', ' ', '|', ' ', 'A'], some ['B']]).length ≠ 1 := by
  decide

-- ── C7: the duplicate-test remover ─────────────────────────────────────────

/-- A pandas column: its name and whether its dtype is float
(`pd.api.types.is_float_dtype`, src/triaxial.py line 257). -/
structure PdColumn where
  name : Str
  isFloat : Bool
deriving DecidableEq

/-- A pandas DataFrame: named, dtype-flagged columns and rows of cells
positionally aligned with the columns. -/
structure PdTable where
  cols : List PdColumn
  rows : List (List PyVal)
deriving DecidableEq

/-- The composite natural key of `remove_duplicate_tests`
(src/triaxial.py lines 248-251). -/
def keyCols : List Str :=
  ["HOLE_ID".toList, "SPEC_DEPTH".toList, "CELL".toList, "DEVF".toList,
   "PWPF".toList, "TEST_TYPE".toList, "SOURCE_FILE".toList]

/-- Decimal digit string of an integer (a stand-in for Python's rendering of
a number; only injectivity on the value matters for deduplication). -/
def intChars (n : Int) : Str :=
  if n < 0 then '-' :: Nat.toDigits 10 n.natAbs else Nat.toDigits 10 n.toNat

/-- `f"{x:.2f}"` (src/triaxial.py line 258): the float rounded to 2 decimal
places, rendered deterministically.  Modelled as the digit string of
`round(100·x)`: two renderings agree exactly when the values rounded to two
decimals agree, which is what the comparison key needs. -/
def fmt2 (q : ℚ) : Str := intChars (round (q * 100))

/-- `str(x)` for a cell of a non-float column (`astype(str)`,
src/triaxial.py line 260): null renders as `"nan"`, numbers via a canonical
rational rendering, strings as themselves. -/
def pyValStr (v : PyVal) : Str :=
  match v with
  | .pnull => "nan".toList
  | .pnum q => intChars q.num ++ ('/' :: Nat.toDigits 10 q.den)
  | .pstr s => s

/-- One cell of the stringified comparison frame (src/triaxial.py lines
256-260): float columns render non-null values to 2 decimals and nulls to
the empty string; other columns use `astype(str)`. -/
def cellStr (isFloat : Bool) (v : PyVal) : Str :=
  if isFloat then
    match v with
    | .pnull => []
    | .pnum q => fmt2 q
    | .pstr s => s
  else pyValStr v

/-- `'|'.join(row.values)` over the available key columns, in `key_cols`
order (src/triaxial.py line 262). -/
def rowKey (cols : List PdColumn) (available : List Str) (row : List PyVal) : Str :=
  List.intercalate ['|'] (available.map (fun cname =>
    cellStr ((cols.getD (cols.findIdx (fun c => c.name == cname))
        ⟨[], false⟩).isFloat)
      (row.getD (cols.findIdx (fun c => c.name == cname)) .pnull)))

/-- `~temp_df.duplicated(subset=['combined'], keep='first')` followed by
`df[mask]` (src/triaxial.py lines 263-264): keep the first row bearing each
key, in order. -/
def dedupByKey {α β : Type _} [DecidableEq β] (f : α → β) :
    List α → List β → List α
  | [], _ => []
  | x :: rest, seen =>
    if f x ∈ seen then dedupByKey f rest seen
    else x :: dedupByKey f rest (f x :: seen)

/-- `available_cols = [col for col in key_cols if col in df.columns]`
(src/triaxial.py line 252). -/
def availCols (cs : List PdColumn) : List Str :=
  keyCols.filter (fun k => decide (k ∈ cs.map PdColumn.name))

/-- `remove_duplicate_tests` (src/triaxial.py lines 241-266): empty tables
pass through; deduplication runs only when at least 3 of the key columns are
present, comparing rows by the pipe-joined stringified key and keeping the
first occurrence in row order. -/
def removeDuplicateTests (df : PdTable) : PdTable :=
  if df.rows = [] then df
  else if 3 ≤ (availCols df.cols).length then
    PdTable.mk df.cols
      (dedupByKey (rowKey df.cols (availCols df.cols)) df.rows [])
  else df

theorem dedupByKey_cons {α β : Type _} [DecidableEq β] (f : α → β) (x : α)
    (rest : List α) (seen : List β) :
    dedupByKey f (x :: rest) seen =
      if f x ∈ seen then dedupByKey f rest seen
      else x :: dedupByKey f rest (f x :: seen) := rfl

/-- The keys of the kept rows are pairwise distinct and avoid the `seen`
accumulator. -/
theorem dedupByKey_props {α β : Type _} [DecidableEq β] (f : α → β)
    (l : List α) :
    ∀ seen : List β, ((dedupByKey f l seen).map f).Nodup ∧
      ∀ y ∈ dedupByKey f l seen, f y ∉ seen := by
  induction l with
  | nil =>
    intro seen
    exact ⟨List.nodup_nil, by simp [dedupByKey]⟩
  | cons x rest ih =>
    intro seen
    rw [dedupByKey_cons]
    by_cases hx : f x ∈ seen
    · rw [if_pos hx]
      exact ih seen
    · rw [if_neg hx]
      obtain ⟨hnd, hnot⟩ := ih (f x :: seen)
      refine ⟨?_, ?_⟩
      · rw [List.map_cons, List.nodup_cons]
        refine ⟨?_, hnd⟩
        intro hmem
        obtain ⟨y, hy, hfy⟩ := List.mem_map.mp hmem
        apply hnot y hy
        rw [hfy]
        exact List.mem_cons_self _ _
      · intro y hy
        rcases List.mem_cons.mp hy with rfl | hy2
        · exact hx
        · exact fun hc => hnot y hy2 (List.mem_cons_of_mem _ hc)

/-- A list whose keys are already pairwise distinct (and unseen) passes
through deduplication unchanged. -/
theorem dedupByKey_id {α β : Type _} [DecidableEq β] (f : α → β) (l : List α) :
    ∀ seen : List β, ((l.map f)).Nodup → (∀ y ∈ l, f y ∉ seen) →
      dedupByKey f l seen = l := by
  induction l with
  | nil =>
    intro seen _ _
    rfl
  | cons x rest ih =>
    intro seen hnd hnot
    rw [List.map_cons, List.nodup_cons] at hnd
    rw [dedupByKey_cons, if_neg (hnot x (List.mem_cons_self _ _))]
    congr 1
    apply ih _ hnd.2
    intro y hy hc
    rcases List.mem_cons.mp hc with heq | hseen
    · exact hnd.1 (heq ▸ List.mem_map_of_mem f hy)
    · exact hnot y (List.mem_cons_of_mem _ hy) hseen

/-- **C7**: the duplicate-test remover is idempotent — a second application
to its own output removes zero rows.  Deduplication compares the composite
key columns present (at least 3 required, else the pass is skipped
unchanged), float columns rendered to 2 decimal places and all values
stringified, keeping the first occurrence in row order. -/
theorem removeDuplicateTests_idempotent (df : PdTable) :
    removeDuplicateTests (removeDuplicateTests df) = removeDuplicateTests df := by
  obtain ⟨cs, rs⟩ := df
  have hred : ∀ r : List (List PyVal), removeDuplicateTests ⟨cs, r⟩ =
      if r = [] then (⟨cs, r⟩ : PdTable)
      else if 3 ≤ (availCols cs).length then
        (⟨cs, dedupByKey (rowKey cs (availCols cs)) r []⟩ : PdTable)
      else ⟨cs, r⟩ := fun r => rfl
  by_cases h0 : rs = []
  · rw [hred rs, if_pos h0, hred rs, if_pos h0]
  by_cases h3 : 3 ≤ (availCols cs).length
  · rw [hred rs, if_neg h0, if_pos h3]
    by_cases hD : dedupByKey (rowKey cs (availCols cs)) rs [] = []
    · rw [hred _, if_pos hD]
    · rw [hred _, if_neg hD, if_pos h3,
        dedupByKey_id _ _ _ (dedupByKey_props _ rs []).1 (by simp)]
  · rw [hred rs, if_neg h0, if_neg h3, hred rs, if_neg h0, if_neg h3]

-- ── C9: GIU lithology-table ingest ─────────────────────────────────────────

/-- One raw row of an uploaded GIU table after column validation:
the identifier cell (null when missing) and the two depth cells after
`pd.to_numeric(..., errors="coerce")` (null when missing or unparseable),
plus the lithology label cell. -/
structure GiuInRow where
  hole : Option Str
  dfrom : Option ℚ
  dto : Option ℚ
  lith : PyVal
deriving DecidableEq

/-- One ingested GIU row. -/
structure GiuRow where
  hole : Str
  dfrom : ℚ
  dto : ℚ
  lith : PyVal
deriving DecidableEq

/-- `df["HOLE_ID"].astype(str)` on one cell (src/MAINcode.py line 446 of
`load_giu_table`): pandas renders a missing value as the string `"nan"`. -/
def pdAstypeStr (h : Option Str) : Str :=
  match h with
  | none => ['n', 'a', 'n']
  | some s => s

/-- The row-wise normalization of `load_giu_table` after `astype(str)`:
the swap applied when `DEPTH_FROM > DEPTH_TO` (src/MAINcode.py lines
454-457), on a row whose depths are present. -/
def normGiuRow (r : GiuInRow) : GiuRow :=
  { hole := pdAstypeStr r.hole,
    dfrom := if r.dfrom.getD 0 > r.dto.getD 0 then r.dto.getD 0 else r.dfrom.getD 0,
    dto := if r.dfrom.getD 0 > r.dto.getD 0 then r.dfrom.getD 0 else r.dto.getD 0,
    lith := r.lith }

/-- The row pipeline of `load_giu_table` (src/MAINcode.py lines 419-459,
after the file read and required-column validation): `HOLE_ID` is stringified
first, then `dropna(subset=["HOLE_ID", "DEPTH_FROM", "DEPTH_TO"])` — at
which point `HOLE_ID` can no longer be null — then inverted depth ranges are
swapped. -/
def loadGiuRows (rows : List GiuInRow) : List GiuRow :=
  rows.filterMap (fun r =>
    match r.dfrom, r.dto with
    | some _, some _ => some (normGiuRow r)
    | _, _ => none)

/-- **C9** (amended): every ingested GIU row has numeric depths satisfying
`DEPTH_FROM ≤ DEPTH_TO` — rows missing either depth are dropped and rows
with inverted depths are kept with the two values swapped — and the output
is exactly the depth-complete input rows, in order, normalized.  The
amendment: rows missing the borehole identifier are NOT dropped —
`astype(str)` runs before `dropna`, so a missing `HOLE_ID` becomes the
literal string `"nan"` and the row is retained under that identifier
(see `loadGiuRows_keeps_missing_id`). -/
theorem loadGiuRows_spec (rows : List GiuInRow) :
    (∀ r ∈ loadGiuRows rows, r.dfrom ≤ r.dto) ∧
    (loadGiuRows rows =
      (rows.filter (fun r => r.dfrom.isSome && r.dto.isSome)).map normGiuRow) := by
  constructor
  · intro r hr
    obtain ⟨r0, hr0, heq⟩ := List.mem_filterMap.mp hr
    rcases hf : r0.dfrom with _ | a
    · rw [hf] at heq
      simp at heq
    rcases ht : r0.dto with _ | b
    · rw [hf, ht] at heq
      simp at heq
    rw [hf, ht] at heq
    simp only [Option.some.injEq] at heq
    rw [← heq]
    unfold normGiuRow
    by_cases hab : r0.dfrom.getD 0 > r0.dto.getD 0
    · simp only [hab, if_true]
      exact le_of_lt hab
    · simp only [hab, if_false]
      exact le_of_not_lt hab
  · induction rows with
    | nil => rfl
    | cons r rest ih =>
      unfold loadGiuRows at ih ⊢
      rcases hf : r.dfrom with _ | a
      · rw [List.filterMap_cons, List.filter_cons]
        rw [hf]
        simpa [hf] using ih
      rcases ht : r.dto with _ | b
      · rw [List.filterMap_cons, List.filter_cons]
        rw [hf, ht]
        simpa [hf, ht] using ih
      rw [List.filterMap_cons, List.filter_cons]
      rw [hf, ht]
      simpa [hf, ht] using ih

/-- Witness for `loadGiuRows_spec`: a row ingested with inverted depths
(2 above 1) satisfies `DEPTH_FROM ≤ DEPTH_TO` after the swap. -/
theorem loadGiuRows_spec_witness :
    (GiuRow.mk ['B'] 1 2 PyVal.pnull).dfrom ≤
      (GiuRow.mk ['B'] 1 2 PyVal.pnull).dto :=
  (loadGiuRows_spec [GiuInRow.mk (some ['B']) (some 2) (some 1) PyVal.pnull]).1
    (GiuRow.mk ['B'] 1 2 PyVal.pnull) (by decide)

/-- **C9 counterexample**: a row with a missing borehole identifier but
valid depths is kept (with identifier `"nan"`), while the claim says rows
missing the identifier are dropped. -/
theorem loadGiuRows_keeps_missing_id :
    loadGiuRows [GiuInRow.mk none (some 1) (some 2) (PyVal.pstr ['L'])] =
        [GiuRow.mk ['n', 'a', 'n'] 1 2 (PyVal.pstr ['L'])] ∧
      loadGiuRows [GiuInRow.mk none (some 1) (some 2) (PyVal.pstr ['L'])] ≠ [] := by
  constructor
  · rfl
  · intro h
    exact absurd h (by decide)

-- ── C1: lithology interval mapping ─────────────────────────────────────────

/-- A lithology interval of one borehole, in GIU row order: depths are
non-null (both mappers see intervals only after
`dropna(subset=["DEPTH_FROM", "DEPTH_TO"])` — src/triaxial.py line 143 —
or after `load_giu_table`'s dropna and swap). -/
structure Interval where
  dfrom : ℚ
  dto : ℚ
  lith : Str
deriving DecidableEq

/-- Interval span `depth_to - depth_from` (`cand["span"]`,
src/MAINcode.py line 546). -/
def spanOf (r : Interval) : ℚ := r.dto - r.dfrom

/-- The intervals of the borehole containing the specimen depth:
`(giu_rows["DEPTH_FROM"] <= depth) & (giu_rows["DEPTH_TO"] >= depth)`
(src/triaxial.py lines 155-158; `intervals.contains(d)` with
`closed="both"` in src/MAINcode.py lines 531-541). -/
def containing (cands : List Interval) (d : ℚ) : List Interval :=
  cands.filter (fun r => decide (r.dfrom ≤ d) && decide (d ≤ r.dto))

/-- `map_litho` of src/triaxial.py lines 147-159, per borehole: the label of
the FIRST containing interval in GIU row order
(`match["LITHOLOGY"].iloc[0]`), or null when none contains the depth. -/
def mapLithoLabel (cands : List Interval) (d : ℚ) : Option Str :=
  (containing cands d).head?.map Interval.lith

def defaultInterval : Interval := ⟨0, 0, []⟩

/-- `tightest = cand[cand["span"] == min_span]` (src/MAINcode.py
lines 547-548). -/
def tightest (cands : List Interval) (d : ℚ) : List Interval :=
  (containing cands d).filter
    (fun r => decide (spanOf r = (((containing cands d).map spanOf).min?).getD 0))

/-- `tightest["DEPTH_FROM"].idxmax()` (src/MAINcode.py line 550): the first
interval attaining the largest `DEPTH_FROM`. -/
def pickMaxFrom (t : List Interval) : Interval :=
  match t with
  | [] => defaultInterval
  | x :: xs => xs.foldl (fun best r => if best.dfrom < r.dfrom then r else best) x

/-- The per-specimen selection of `map_lithology` (src/MAINcode.py lines
536-553): null when no interval of the borehole contains the depth;
otherwise the label of the minimum-span containing interval, broken by
`idxmax` over `DEPTH_FROM` when several tie on span (`tightest.index[0]`
when a single interval remains). -/
def selectLith (cands : List Interval) (d : ℚ) : Option Str :=
  if containing cands d = [] then none
  else if 1 < (tightest cands d).length then
    some (pickMaxFrom (tightest cands d)).lith
  else
    some ((tightest cands d).headD defaultInterval).lith

theorem mem_tightest (cands : List Interval) (d : ℚ) (q : Interval) :
    q ∈ tightest cands d ↔ q ∈ containing cands d ∧
      spanOf q = (((containing cands d).map spanOf).min?).getD 0 := by
  unfold tightest
  rw [List.mem_filter]
  simp

theorem foldl_pick_mem (xs : List Interval) :
    ∀ x : Interval,
      xs.foldl (fun best r => if best.dfrom < r.dfrom then r else best) x ∈
        x :: xs := by
  induction xs with
  | nil => intro x; exact List.mem_cons_self _ _
  | cons y ys ih =>
    intro x
    rw [List.foldl_cons]
    rcases List.mem_cons.mp (ih (if x.dfrom < y.dfrom then y else x)) with heq | hmem
    · rw [heq]
      by_cases hxy : x.dfrom < y.dfrom
      · rw [if_pos hxy]
        exact List.mem_cons_of_mem _ (List.mem_cons_self _ _)
      · rw [if_neg hxy]
        exact List.mem_cons_self _ _
    · exact List.mem_cons_of_mem _ (List.mem_cons_of_mem _ hmem)

theorem foldl_pick_ge_init (xs : List Interval) :
    ∀ x : Interval,
      x.dfrom ≤
        (xs.foldl (fun best r => if best.dfrom < r.dfrom then r else best) x).dfrom := by
  induction xs with
  | nil => intro x; exact le_refl _
  | cons y ys ih =>
    intro x
    rw [List.foldl_cons]
    refine le_trans ?_ (ih (if x.dfrom < y.dfrom then y else x))
    by_cases hxy : x.dfrom < y.dfrom
    · rw [if_pos hxy]
      exact le_of_lt hxy
    · rw [if_neg hxy]

theorem foldl_pick_ge_mem (xs : List Interval) :
    ∀ x q : Interval, q ∈ xs →
      q.dfrom ≤
        (xs.foldl (fun best r => if best.dfrom < r.dfrom then r else best) x).dfrom := by
  induction xs with
  | nil =>
    intro x q hq
    simp at hq
  | cons y ys ih =>
    intro x q hq
    rw [List.foldl_cons]
    rcases List.mem_cons.mp hq with rfl | hmem
    · refine le_trans ?_ (foldl_pick_ge_init ys (if x.dfrom < q.dfrom then q else x))
      by_cases hxy : x.dfrom < q.dfrom
      · rw [if_pos hxy]
      · rw [if_neg hxy]
        exact le_of_not_lt hxy
    · exact ih _ q hmem

theorem pickMaxFrom_mem (t : List Interval) (ht : t ≠ []) :
    pickMaxFrom t ∈ t := by
  cases t with
  | nil => exact absurd rfl ht
  | cons x xs => exact foldl_pick_mem xs x

theorem pickMaxFrom_ge (t : List Interval) (q : Interval) (hq : q ∈ t) :
    q.dfrom ≤ (pickMaxFrom t).dfrom := by
  cases t with
  | nil => simp at hq
  | cons x xs =>
    rcases List.mem_cons.mp hq with rfl | hmem
    · exact foldl_pick_ge_init xs q
    · exact foldl_pick_ge_mem xs x q hmem

/-- **C1** (amended): `map_lithology` (src/MAINcode.py) assigns, per
specimen, null exactly when no interval of the borehole contains the depth,
and otherwise the label of a containing interval of minimal span
`depth_to − depth_from`, with the largest `depth_from` among the minimal
ones.  The amendment is that this holds for src/MAINcode.py's mapper only:
src/triaxial.py's `map_litho` instead returns the label of the FIRST
containing interval in GIU row order, which need not have minimal span
(see `mapLitho_first_match_counterexample`). -/
theorem selectLith_spec (cands : List Interval) (d : ℚ) :
    (selectLith cands d = none ↔ containing cands d = []) ∧
    (∀ l, selectLith cands d = some l →
      ∃ r ∈ containing cands d, r.lith = l ∧
        (∀ q ∈ containing cands d, spanOf r ≤ spanOf q) ∧
        (∀ q ∈ containing cands d, spanOf q = spanOf r → q.dfrom ≤ r.dfrom)) := by
  by_cases hc : containing cands d = []
  · constructor
    · unfold selectLith
      rw [if_pos hc]
      simp [hc]
    · intro l hl
      unfold selectLith at hl
      rw [if_pos hc] at hl
      exact absurd hl (by simp)
  · have hne2 : ((containing cands d).map spanOf) ≠ [] := by
      simpa using hc
    obtain ⟨m, hm⟩ : ∃ m, ((containing cands d).map spanOf).min? = some m := by
      rcases hmin : ((containing cands d).map spanOf).min? with _ | m
      · rw [List.min?_eq_none_iff] at hmin
        exact absurd hmin hne2
      · exact ⟨m, rfl⟩
    have hmmem := List.min?_mem (fun a b => min_choice a b) hm
    obtain ⟨r0, hr0c, hr0s⟩ := List.mem_map.mp hmmem
    have hr0t : r0 ∈ tightest cands d :=
      (mem_tightest _ _ _).mpr ⟨hr0c, by rw [hm, Option.getD_some]; exact hr0s⟩
    have htne : tightest cands d ≠ [] := fun h => by
      rw [h] at hr0t
      simp at hr0t
    have hminall : ∀ q ∈ containing cands d, m ≤ spanOf q := by
      intro q hq
      have hall := (List.le_min?_iff (fun _ _ _ => le_min_iff) hm).mp (le_refl m)
      exact hall (spanOf q) (List.mem_map_of_mem spanOf hq)
    have htspan : ∀ q, q ∈ tightest cands d → spanOf q = m := by
      intro q hq
      have h2 := ((mem_tightest _ _ _).mp hq).2
      rwa [hm, Option.getD_some] at h2
    have htc : ∀ q, q ∈ tightest cands d → q ∈ containing cands d :=
      fun q hq => ((mem_tightest _ _ _).mp hq).1
    have hct : ∀ q, q ∈ containing cands d → spanOf q = m → q ∈ tightest cands d := by
      intro q hq hs
      exact (mem_tightest _ _ _).mpr ⟨hq, by rw [hm, Option.getD_some]; exact hs⟩
    constructor
    · constructor
      · intro h
        unfold selectLith at h
        rw [if_neg hc] at h
        by_cases hlen : 1 < (tightest cands d).length
        · rw [if_pos hlen] at h
          exact absurd h (by simp)
        · rw [if_neg hlen] at h
          exact absurd h (by simp)
      · intro h
        exact absurd h hc
    · intro l hl
      unfold selectLith at hl
      rw [if_neg hc] at hl
      by_cases hlen : 1 < (tightest cands d).length
      · rw [if_pos hlen] at hl
        simp only [Option.some.injEq] at hl
        have hcm : pickMaxFrom (tightest cands d) ∈ tightest cands d :=
          pickMaxFrom_mem _ htne
        refine ⟨pickMaxFrom (tightest cands d), htc _ hcm, hl, ?_, ?_⟩
        · intro q hq
          rw [htspan _ hcm]
          exact hminall q hq
        · intro q hq hsq
          exact pickMaxFrom_ge _ q (hct q hq (by rw [hsq, htspan _ hcm]))
      · rw [if_neg hlen] at hl
        simp only [Option.some.injEq] at hl
        have hx : (tightest cands d).headD defaultInterval ∈ tightest cands d := by
          cases ht : tightest cands d with
          | nil => exact absurd ht htne
          | cons a t => simp
        refine ⟨(tightest cands d).headD defaultInterval, htc _ hx, hl, ?_, ?_⟩
        · intro q hq
          rw [htspan _ hx]
          exact hminall q hq
        · intro q hq hsq
          have hqt : q ∈ tightest cands d :=
            hct q hq (by rw [hsq, htspan _ hx])
          cases ht : tightest cands d with
          | nil => exact absurd ht htne
          | cons a t =>
            have htnil : t = [] := by
              rw [ht] at hlen
              simp only [List.length_cons] at hlen
              have : t.length = 0 := by omega
              exact List.length_eq_zero.mp this
            subst htnil
            rw [ht] at hqt
            simp only [List.mem_singleton] at hqt
            rw [hqt]
            simp

/-- Witness for `selectLith_spec`: borehole intervals `[0,10] → "W"` and
`[4,6] → "N"` at depth 5 — the narrow interval's label is chosen and is
provably span-minimal. -/
theorem selectLith_spec_witness :
    ∃ r ∈ containing [⟨0, 10, ['W']⟩, ⟨4, 6, ['N']⟩] 5, r.lith = ['N'] ∧
      (∀ q ∈ containing [⟨0, 10, ['W']⟩, ⟨4, 6, ['N']⟩] 5, spanOf r ≤ spanOf q) ∧
      (∀ q ∈ containing [⟨0, 10, ['W']⟩, ⟨4, 6, ['N']⟩] 5,
        spanOf q = spanOf r → q.dfrom ≤ r.dfrom) :=
  (selectLith_spec [⟨0, 10, ['W']⟩, ⟨4, 6, ['N']⟩] 5).2 ['N'] (by
    have hc : containing [⟨0, 10, ['W']⟩, ⟨4, 6, ['N']⟩] 5 =
        [⟨0, 10, ['W']⟩, ⟨4, 6, ['N']⟩] := by decide
    have hs1 : spanOf ⟨0, 10, ['W']⟩ = 10 := by norm_num [spanOf]
    have hs2 : spanOf ⟨4, 6, ['N']⟩ = 2 := by norm_num [spanOf]
    have hmin : ((containing [⟨0, 10, ['W']⟩, ⟨4, 6, ['N']⟩] 5).map
        spanOf).min? = some 2 := by
      rw [hc]
      simp only [List.map_cons, List.map_nil, List.min?, hs1, hs2, List.foldl]
      norm_num
    have ht : tightest [⟨0, 10, ['W']⟩, ⟨4, 6, ['N']⟩] 5 = [⟨4, 6, ['N']⟩] := by
      unfold tightest
      rw [hmin, hc]
      norm_num [List.filter_cons, List.filter_nil, hs1, hs2]
    unfold selectLith
    rw [hc, ht]
    simp)

/-- **C1 counterexample**: with the wide interval `[0,10] → "W"` listed
before the narrow `[4,6] → "N"` and specimen depth 5, src/triaxial.py's
`map_litho` assigns `"W"` — the label of the first containing interval —
although no containing interval labelled `"W"` has minimal span, so the
assigned label does not come from a smallest-span interval as the claim
states. -/
theorem mapLitho_first_match_counterexample :
    mapLithoLabel [⟨0, 10, ['W']⟩, ⟨4, 6, ['N']⟩] 5 = some ['W'] ∧
    ¬ ∃ r ∈ containing [⟨0, 10, ['W']⟩, ⟨4, 6, ['N']⟩] 5, r.lith = ['W'] ∧
        ∀ q ∈ containing [⟨0, 10, ['W']⟩, ⟨4, 6, ['N']⟩] 5,
          spanOf r ≤ spanOf q := by
  constructor
  · decide
  · rintro ⟨r, hr, hlith, hmin⟩
    have hc : containing [⟨0, 10, ['W']⟩, ⟨4, 6, ['N']⟩] 5 =
        [⟨0, 10, ['W']⟩, ⟨4, 6, ['N']⟩] := by decide
    rw [hc] at hr hmin
    rcases List.mem_cons.mp hr with heq | hr2
    · have h2 := hmin ⟨4, 6, ['N']⟩ (by simp)
      rw [heq] at h2
      norm_num [spanOf] at h2
    · simp only [List.mem_singleton] at hr2
      rw [hr2] at hlith
      exact absurd hlith (by decide)

-- ── C2: the stress-path calculator ─────────────────────────────────────────

/-- A Python runtime error raised (and uncaught) by the modelled code. -/
inductive PyErr where
  | typeError : PyErr
  | nameError : Str → PyErr
deriving DecidableEq

/-- One input row of `calculate_s_t_values` after the coalesce step: the
canonical `CELL`, `DEVF`, `PWPF` cells, numeric after
`pd.to_numeric(..., errors="coerce")` (null = NaN). -/
structure STRow where
  cell : Option ℚ
  devf : Option ℚ
  pwpf : Option ℚ
deriving DecidableEq

/-- The input table: which canonical columns exist after coalescing (pandas
arithmetic depends on column presence, not only on values), and the rows. -/
structure STTable where
  hasCELL : Bool
  hasDEVF : Bool
  hasPWPF : Bool
  rows : List STRow
deriving DecidableEq

/-- NaN-propagating addition (pandas element-wise `+`). -/
def oadd (a b : Option ℚ) : Option ℚ :=
  match a, b with
  | some x, some y => some (x + y)
  | _, _ => none

/-- NaN-propagating subtraction. -/
def osub (a b : Option ℚ) : Option ℚ :=
  match a, b with
  | some x, some y => some (x - y)
  | _, _ => none

/-- `0.5 * (...)`, propagating NaN. -/
def ohalf (a : Option ℚ) : Option ℚ :=
  match a with
  | some x => some (x / 2)
  | none => none

/-- One output row of `calculate_s_t_values` (src/triaxial.py
lines 201-221). -/
structure STOut where
  sigma1 : Option ℚ
  sigma3 : Option ℚ
  sigma1eff : Option ℚ
  sigma3eff : Option ℚ
  sTotal : Option ℚ
  sEff : Option ℚ
  s : Option ℚ
  sSource : Str
  t : Option ℚ
  valid : Bool
deriving DecidableEq

/-- The per-row arithmetic of `calculate_s_t_values` when the `PWPF` column
exists (src/triaxial.py lines 201-221): total stresses use
`df.get("DEVF", 0.0)` / `df.get("CELL", 0.0)` — an absent column
contributes the scalar `0.0` — effective stresses subtract `PWPF`
(NaN-propagating), `s` prefers the effective value exactly when both
effective principal stresses are finite, and `s_source` records which was
used.  `np.isfinite` is `Option.isSome` here: NaN is the only non-finite
value arising from coerced numerics. -/
def stRowOut (hasCELL hasDEVF : Bool) (r : STRow) : STOut :=
  let cell := if hasCELL then r.cell else some 0
  let devf := if hasDEVF then r.devf else some 0
  let sigma1 := oadd devf cell
  let sigma3 := cell
  let sigma1eff := osub sigma1 r.pwpf
  let sigma3eff := osub sigma3 r.pwpf
  let sTotal := ohalf (oadd sigma1 sigma3)
  let sEff := ohalf (oadd sigma1eff sigma3eff)
  let hasEff := sigma1eff.isSome && sigma3eff.isSome
  let s := if hasEff then sEff else sTotal
  let t := ohalf (osub sigma1 sigma3)
  { sigma1 := sigma1,
    sigma3 := sigma3,
    sigma1eff := sigma1eff,
    sigma3eff := sigma3eff,
    sTotal := sTotal,
    sEff := sEff,
    s := s,
    sSource := if hasEff then ['e', 'f', 'f', 'e', 'c', 't', 'i', 'v', 'e']
      else ['t', 'o', 't', 'a', 'l'],
    t := t,
    valid := s.isSome && t.isSome }

/-- `calculate_s_t_values` (src/triaxial.py lines 168-235).  When no `PWPF`
column exists after coalescing, `df.get("PWPF")` at line 207 returns Python
`None` and `df["SIGMA_1"] - None` raises `TypeError` (element-wise
`float - NoneType` is unsupported; on a row-less frame the later
`np.isfinite` on the object-dtype result raises instead) — the function
never reaches its return.  With the column present the per-row arithmetic
of `stRowOut` applies. -/
def calculate_s_t_values (df : STTable) : Except PyErr (List STOut) :=
  if df.hasPWPF then
    Except.ok (df.rows.map (stRowOut df.hasCELL df.hasDEVF))
  else Except.error PyErr.typeError

/-- **C2**: evaluation at the failing input and at the intended behavior.
First conjunct — the bug: on a table with `CELL` and `DEVF` but no `PWPF`
column, the calculator raises `TypeError` (from
`df["SIGMA_1"] - df.get("PWPF")`, src/triaxial.py line 207) instead of the
claimed null `s_effective` with fallback to `s_total`.  Second conjunct —
with the `PWPF` column present the claimed behavior holds: a null `PWPF`
yields null effective stresses and null `s_effective`, with `s = s_total`
and `s_source = "total"` (no silent `u = 0` substitution, which would
instead have produced non-null effective columns and
`s_source = "effective"`); a finite `PWPF` yields `s = s_effective` with
`s_source = "effective"`. -/
theorem calculate_s_t_pwpf :
    (calculate_s_t_values ⟨true, true, false, [⟨some 100, some 50, none⟩]⟩ =
      Except.error PyErr.typeError) ∧
    (calculate_s_t_values ⟨true, true, true,
        [⟨some 100, some 50, none⟩, ⟨some 100, some 50, some 20⟩]⟩ =
      Except.ok
        [⟨some 150, some 100, none, none, some 125, none, some 125,
            ['t', 'o', 't', 'a', 'l'], some 25, true⟩,
         ⟨some 150, some 100, some 130, some 80, some 125, some 105, some 105,
            ['e', 'f', 'f', 'e', 'c', 't', 'i', 'v', 'e'], some 25, true⟩]) := by
  constructor
  · rfl
  · unfold calculate_s_t_values
    norm_num [stRowOut, oadd, osub, ohalf]

-- ── C4: the triaxial table builder ─────────────────────────────────────────

/-- `generate_triaxial_table` (src/triaxial.py lines 12-120).  Lines 18-39
perform pure `groups.get(...)` lookups, copies and renames.  The inner
definition `_safe_merge` at line 41 annotates a parameter as `List[str]`,
but triaxial.py line 1 imports only `Dict, Tuple` from `typing` — never
`List` — and Python evaluates parameter annotations when the inner `def`
statement executes, i.e. on every call of `generate_triaxial_table`.  Every
call therefore raises `NameError: name 'List' is not defined` at line 41
before any merge logic runs; the builder of lines 41-120 is unreachable on
every input, including the empty group registry. -/
def generate_triaxial_table (groups : List (Str × PdTable)) :
    Except PyErr PdTable :=
  Except.error (PyErr.nameError ['L', 'i', 's', 't'])

/-- **C4**: the builder raises on every group registry — in particular on
the empty registry, where the claim demands an empty table to be returned
without raising — because its inner `_safe_merge` annotation references the
never-imported name `List`. -/
theorem generate_triaxial_table_always_raises :
    (∀ groups : List (Str × PdTable),
      generate_triaxial_table groups =
        Except.error (PyErr.nameError ['L', 'i', 's', 't'])) ∧
    generate_triaxial_table [] =
      Except.error (PyErr.nameError ['L', 'i', 's', 't']) :=
  ⟨fun _ => rfl, rfl⟩

end Ags
